import Mathlib

/-
  Shallow embedding of the express-guestbook server (src/server.js).

  Modelling conventions:
  - A JS object field that may be absent or of the wrong runtime type is an
    `Option` field; `none` stands for `undefined` / a non-matching type.
  - JS `x || d` on strings is `jsOrS` (the empty string is falsy).
  - The denylist scrub `cleanText.replace(new RegExp("\\b" + w + "\\b", "gi"), "***")`
    is modelled character-exactly for ASCII: a left-to-right, non-overlapping scan
    that at each position tests a case-insensitive literal match of `w` flanked by
    JS word boundaries (a position is a boundary when exactly one neighbour is a
    word character `[A-Za-z0-9_]`), and on a match emits `***` and resumes after
    the matched region of the original string.
  - `Date.now()` and `Math.random()` results are explicit parameters.
-/

/-- A guestbook entry as stored in memory / persisted as JSON.
    Every field except none is optional because records loaded from disk or the
    remote KV store may lack fields or hold values of the wrong type. -/
structure Entry where
  id : Option String
  name : Option String
  text : Option String
  timestamp : Option Int
  likes : Option Int
  owner : Option String
deriving DecidableEq

/-- JS string truthiness fallback `s || d` where a missing value and the empty
    string are falsy. -/
def jsOrS (o : Option String) (d : String) : String :=
  match o with
  | some s => if s = "" then d else s
  | none => d

/-- Whitespace recognised by the model of JS `String.prototype.trim`. -/
def isJsSpace (c : Char) : Bool :=
  c == ' ' || c == '\t' || c == '\n' || c == '\r' || c == '\x0b' || c == '\x0c'

/-- Trim on the character list: drop leading and trailing whitespace. -/
def trimChars (l : List Char) : List Char :=
  ((l.dropWhile isJsSpace).reverse.dropWhile isJsSpace).reverse

/-- Model of JS `s.trim()`. -/
def jsTrim (s : String) : String := String.mk (trimChars s.data)

/-- ASCII lower-casing on character codes, as the `i` regex flag folds the
    ASCII denylist terms. -/
def lowerCode (n : Nat) : Nat := if 65 ≤ n ∧ n ≤ 90 then n + 32 else n

/-- ASCII lower-casing of a character (model of `toLowerCase` for ASCII). -/
def lowerChar (c : Char) : Char :=
  if 65 ≤ c.toNat ∧ c.toNat ≤ 90 then Char.ofNat (c.toNat + 32) else c

/-- Model of JS `s.toLowerCase()` (ASCII range). -/
def toLowerStr (s : String) : String := String.mk (s.data.map lowerChar)

/-- JS regex word character `\w`, i.e. `[A-Za-z0-9_]`. -/
def isWordP (n : Nat) : Prop :=
  (65 ≤ n ∧ n ≤ 90) ∨ (97 ≤ n ∧ n ≤ 122) ∨ (48 ≤ n ∧ n ≤ 57) ∨ n = 95

instance (n : Nat) : Decidable (isWordP n) := by
  unfold isWordP; infer_instance

/-- Boolean word-character test. -/
def isWordChar (c : Char) : Bool := decide (isWordP c.toNat)

/-- Word-character test on an optional character; out of range counts as
    non-word, matching `\b` at the ends of the subject string. -/
def isWordOpt : Option Char → Bool
  | some c => isWordChar c
  | none => false

/-- Case-insensitive character comparison (ASCII folding), the `i` flag. -/
def ciEq (c d : Char) : Bool := lowerCode c.toNat == lowerCode d.toNat

/-- Does `s` start with `w`, case-insensitively? -/
def ciStarts : List Char → List Char → Bool
  | [], _ => true
  | _ :: _, [] => false
  | c :: w, d :: s => ciEq c d && ciStarts w s

/-- Is `m` exactly a case-insensitive copy of `w`? -/
def ciMatch (w m : List Char) : Bool := (w.length == m.length) && ciStarts w m

/-- Does the regex `\b<w>\b` (flags `gi`) match at the current position of the
    subject? `prev` is the character before the position (`none` at the start). -/
def matchAt (w : List Char) (prev : Option Char) (s : List Char) : Bool :=
  ciStarts w s && (isWordOpt prev != isWordOpt s.head?) &&
    (isWordOpt ((List.take w.length s).getLast?) != isWordOpt ((List.drop w.length s).head?))

/-- The replacement text `"***"`. -/
def mask : List Char := ['*', '*', '*']

/-- Fuel-indexed left-to-right global replace of `\b<w>\b` by `***`.
    On a match the scan resumes after the matched region of the original
    subject, exactly as `String.prototype.replace` with a global regex. -/
def scrubAux (w : List Char) : Nat → Option Char → List Char → List Char
  | 0, _, s => s
  | fuel + 1, prev, s =>
    match s with
    | [] => []
    | c :: rest =>
      if matchAt w prev (c :: rest) then
        mask ++ scrubAux w fuel ((List.take w.length (c :: rest)).getLast?)
          (List.drop w.length (c :: rest))
      else
        c :: scrubAux w fuel (some c) rest

/-- The scan with enough fuel to process the whole subject. -/
def scrubL (w : List Char) (prev : Option Char) (s : List Char) : List Char :=
  scrubAux w s.length prev s

/-- One denylist replacement pass: `text.replace(/\b<w>\b/gi, "***")`. -/
def scrub (w s : String) : String := String.mk (scrubL w.data none s.data)

/-- The fixed denylist of `receiveEntry` (banned programming language names,
    deliberately excluding one term). -/
def banned : List String :=
  ["javascript", "typescript", "python", "java", "csharp",
   "go", "golang", "rust", "ruby", "php", "swift", "kotlin", "scala",
   "haskell", "elixir", "erlang", "perl", "r", "matlab", "dart",
   "objective-c", "objective c", "visual basic", "vb", "shell", "bash",
   "powershell", "lua", "clojure", "f#", "fsharp", "fortran", "cobol",
   "groovy", "julia", "solidity", "assembly", "asm", "pascal", "delphi",
   "prolog", "lisp", "scheme", "ocaml", "reasonml", "nim", "crystal",
   "smalltalk", "ada", "abap", "apex", "sas", "stata", "verilog", "vhdl",
   "tcl", "awk", "scratch", "sql"]

/-- The text sanitizer: the `for (const w of banned)` replacement loop of
    `receiveEntry`. -/
def sanitize (s : String) : String :=
  banned.foldl (fun acc w => scrub w acc) s

/-- Substring test, model of JS `hay.includes(needle)`. -/
def strContains (hay needle : String) : Bool :=
  hay.data.tails.any (fun t => needle.data.isPrefixOf t)

/-- Redirect target of the like/unlike/delete handlers:
    `req.headers.referer?.includes("/guestbook") ? req.headers.referer : "/guestbook"`. -/
def redirectTarget (referer : Option String) : String :=
  match referer with
  | some r => if strContains r "/guestbook" then r else "/guestbook"
  | none => "/guestbook"

/-- Replace the first entry satisfying `p` (the `findIndex` + in-place mutation
    pattern of the like/unlike handlers); `none` when no entry matches. -/
def updateFirst (p : Entry → Bool) (f : Entry → Entry) : List Entry → Option (List Entry)
  | [] => none
  | e :: rest =>
    if p e then some (f e :: rest)
    else Option.map (fun l => e :: l) (updateFirst p f rest)

/-- The like mutation `entry.likes = (entry.likes || 0) + 1` on the
    missing-or-numeric likes domain of the data model (where `getD 0`
    coincides with the `||` fallback); `likeUpdV` is the same expression over
    the full raw value space. -/
def likeUpd (e : Entry) : Entry := { e with likes := some (e.likes.getD 0 + 1) }

/-- The unlike mutation
    `const current = entry.likes || 0; entry.likes = current > 0 ? current - 1 : 0`
    on the missing-or-numeric likes domain; `unlikeUpdV` is the same
    expression over the full raw value space. -/
def unlikeUpd (e : Entry) : Entry :=
  { e with likes := some (if 0 < e.likes.getD 0 then e.likes.getD 0 - 1 else 0) }

/-- Handler `POST /like/:id`: second component records whether `saveEntries`
    was invoked. -/
def likeOp (st : List Entry) (id : String) : List Entry × Bool :=
  match updateFirst (fun e => e.id == some id) likeUpd st with
  | some st2 => (st2, true)
  | none => (st, false)

/-- Handler `POST /unlike/:id`. -/
def unlikeOp (st : List Entry) (id : String) : List Entry × Bool :=
  match updateFirst (fun e => e.id == some id) unlikeUpd st with
  | some st2 => (st2, true)
  | none => (st, false)

/-- Handler `POST /delete/:id`: filters out entries whose id and owner both
    match, saves only when the length changed, and always redirects. -/
def deleteHandler (st : List Entry) (id clientId : String) (referer : Option String) :
    List Entry × Bool × String :=
  let st2 := st.filter (fun e => !(e.id == some id && e.owner == some clientId))
  (st2, st2.length != st.length, redirectTarget referer)

/-- Handler `POST /addEntry` (`receiveEntry` in the source): trims the inputs,
    sanitizes the text, and appends a new entry unless the sanitized text is
    empty; always redirects to `/guestbook`. -/
def receiveEntry (st : List Entry) (nameText entryText : Option String) (owner : String)
    (now : Int) (rnd : String) : List Entry × Bool × String :=
  let text := entryText.map jsTrim
  let name := jsOrS (nameText.map jsTrim) "Anonymous"
  let cleanText := sanitize (jsOrS text "")
  let data : Entry :=
    { id := some (toString now ++ "-" ++ rnd), name := some name, text := some cleanText,
      timestamp := some now, likes := some 0, owner := some owner }
  if cleanText = "" then (st, false, "/guestbook") else (st ++ [data], true, "/guestbook")

/-- Normalization of one historical record in `loadFromFile`. -/
def normalizeEntry (now : Int) (rnd : String) (e : Entry) : Entry :=
  let timestamp := e.timestamp.getD now
  let id := jsOrS e.id (toString timestamp ++ "-" ++ rnd)
  let likes := e.likes.getD 0
  { id := some id, name := e.name, text := e.text, timestamp := some timestamp,
    likes := some likes, owner := e.owner }

/-- The `entries.map(...)` normalization pass, with one random suffix per
    record position. -/
def normalizeList (now : Int) (rnd : Nat → String) : Nat → List Entry → List Entry
  | _, [] => []
  | i, e :: rest => normalizeEntry now (rnd i) e :: normalizeList now rnd (i + 1) rest

/-- Observable state of `guestbook.json` when `loadFromFile` runs. -/
inductive FileData where
  | absent
  | badParse
  | notArray
  | array (es : List Entry)

/-- `loadFromFile`: missing file, unparsable JSON and non-array JSON all give
    the empty collection; an array is normalized record by record. -/
def loadFromFile : FileData → Int → (Nat → String) → List Entry
  | .absent, _, _ => []
  | .badParse, _, _ => []
  | .notArray, _, _ => []
  | .array es, now, rnd => normalizeList now rnd 0 es

/-- Observable outcome of `kv.get(KV_KEY)`. -/
inductive KVData where
  | throwing
  | notArray
  | array (es : List Entry)

/-- Runtime configuration relevant to backend selection. -/
structure LoadCfg where
  useKV : Bool
  kvUrl : Option String
  kvToken : Option String

/-- JS truthiness of an optional environment string. -/
def jsTruthy (o : Option String) : Bool :=
  match o with
  | none => false
  | some s => !(s == "")

/-- Both KV connection variables present and non-empty. -/
def kvConfigured (c : LoadCfg) : Bool := jsTruthy c.kvUrl && jsTruthy c.kvToken

/-- `loadEntries`: backend selection with fallback. Note that the successful
    KV path returns the parsed array as-is, without normalization. -/
def loadEntries (c : LoadCfg) (kv : KVData) (fd : FileData) (now : Int)
    (rnd : Nat → String) : List Entry :=
  if c.useKV then
    if kvConfigured c then
      match kv with
      | .throwing => loadFromFile fd now rnd
      | .notArray => []
      | .array es => es
    else loadFromFile fd now rnd
  else loadFromFile fd now rnd

/-- Timestamp as used by the sort comparator `(a, b) => b.timestamp - a.timestamp`. -/
def tsOf (e : Entry) : Int := e.timestamp.getD 0

/-- Relative-age label `formatTimeAgo(ms)`; `Math.floor` on a possibly negative
    difference is flooring division. -/
def formatTimeAgo (now ms : Int) : String :=
  let diff := now - ms
  let seconds := diff.fdiv 1000
  if seconds < 60 then toString seconds ++ "s ago"
  else
    let minutes := seconds.fdiv 60
    if minutes < 60 then toString minutes ++ "m ago"
    else
      let hours := minutes.fdiv 60
      if hours < 24 then toString hours ++ "h ago"
      else
        let days := hours.fdiv 24
        if days < 30 then toString days ++ "d ago"
        else
          let months := days.fdiv 30
          if months < 12 then toString months ++ "mo ago"
          else toString (months.fdiv 12) ++ "y ago"

/-- The snapshot sort `[...guestbookEntries].sort((a, b) => b.timestamp - a.timestamp)`:
    a stable sort by descending timestamp. -/
def sortEntries (st : List Entry) : List Entry :=
  List.insertionSort (fun a b => tsOf b ≤ tsOf a) st

/-- `getFilteredEntries(query)`: sort descending by timestamp, filter by the
    trimmed lower-cased query against name and text, annotate with `timeAgo`. -/
def getFilteredEntries (st : List Entry) (query : String) (now : Int) :
    List (Entry × String) :=
  let q := toLowerStr (jsTrim query)
  let base := sortEntries st
  let filtered :=
    if q = "" then base
    else base.filter (fun e =>
      strContains (toLowerStr (jsOrS e.name "")) q ||
      strContains (toLowerStr (jsOrS e.text "")) q)
  filtered.map (fun e => (e, formatTimeAgo now (tsOf e)))

/-- Collection invariant: every entry carries a numeric, non-negative likes
    counter. -/
def LikesOk (st : List Entry) : Prop :=
  ∀ e ∈ st, ∃ n : Int, e.likes = some n ∧ 0 ≤ n

/-- Last character of `a`, falling back to the outer previous character; the
    character that precedes a position inside `a ++ rest` when `p` precedes the
    whole of `a`. -/
def lastD (p : Option Char) (a : List Char) : Option Char :=
  match a.getLast? with
  | some c => some c
  | none => p

/-- A whole-word, case-insensitive occurrence of `w` inside `t`, where `p` is
    the character preceding `t` (for boundary purposes). `a`/`b` are the
    surrounding context and `m` the matched region. -/
def Occurs (w : List Char) (p : Option Char) (t : List Char) : Prop :=
  ∃ a m b, t = a ++ m ++ b ∧ ciMatch w m = true ∧
    isWordOpt (lastD p a) ≠ isWordOpt m.head? ∧
    isWordOpt m.getLast? ≠ isWordOpt b.head?

/-- Executable occurrence scan, used to discharge concrete no-occurrence facts. -/
def occursB (w : List Char) : Option Char → List Char → Bool
  | _, [] => false
  | p, c :: rest => matchAt w p (c :: rest) || occursB w (some c) rest

/-- Sample entry with a given timestamp, for concrete instances. -/
def entryTs (ts : Int) : Entry :=
  { id := some (toString ts), name := some "n", text := some "t",
    timestamp := some ts, likes := some 0, owner := some "o" }

/-- Sample entry with id "a" and a likes counter, for concrete instances. -/
def entryA : Entry :=
  { id := some "a", name := some "Ann", text := some "hi",
    timestamp := some 7, likes := some 0, owner := some "c1" }

/-- Sample legacy record lacking a numeric likes field and an owner, as the
    remote KV backend may return it. -/
def kvRaw : Entry :=
  { id := some "k1", name := some "old", text := some "hi",
    timestamp := some 10, likes := none, owner := none }

/-- The raw JS value space of the `likes` field as the like/unlike handlers
    see it: a number, a string, `undefined` (a missing field), or `NaN`.
    `Entry.likes : Option Int` covers only the missing-or-numeric domain of the
    persisted data model; the truthiness-based expressions of the like/unlike
    handlers distinguish falsy from truthy non-numeric values, so they are
    modelled on this type. -/
inductive JsLikes where
  | undef
  | nan
  | num (n : Int)
  | str (s : String)
deriving DecidableEq

/-- JS truthiness of a likes value: `undefined`, `NaN`, `0` and `""` are
    falsy, everything else truthy. -/
def jsTruthyL : JsLikes → Bool
  | .undef => false
  | .nan => false
  | .num n => !(n == 0)
  | .str s => !(s == "")

/-- The fallback `likes || 0`. -/
def jsOrZero (v : JsLikes) : JsLikes :=
  if jsTruthyL v then v else JsLikes.num 0

/-- ASCII decimal digit. -/
def isDigitChar (c : Char) : Bool := 48 ≤ c.toNat && c.toNat ≤ 57

/-- Value of a decimal digit string. -/
def decVal (l : List Char) : Nat :=
  l.foldl (fun acc c => acc * 10 + (c.toNat - 48)) 0

/-- The integer fragment of JS `ToNumber` on strings: trimmed empty string is
    0, an optionally minus-signed run of decimal digits is its value, any
    other string is `NaN` (`none`). Fractional, exponent and hex forms lie
    outside the integer embedding and are not referenced by any theorem. -/
def strToNumber (s : String) : Option Int :=
  match trimChars s.data with
  | [] => some 0
  | '-' :: rest =>
    if rest ≠ [] ∧ rest.all isDigitChar then some (-(Int.ofNat (decVal rest))) else none
  | t => if t.all isDigitChar then some (Int.ofNat (decVal t)) else none

/-- JS `ToNumber` on a likes value; `none` is `NaN`. -/
def jsToNum : JsLikes → Option Int
  | .undef => none
  | .nan => none
  | .num n => some n
  | .str s => strToNumber s

/-- JS `v + 1`: numeric addition on numbers, string concatenation when the
    left operand is a string, `NaN` when it is `undefined` or `NaN`. -/
def jsPlusOne : JsLikes → JsLikes
  | .num n => JsLikes.num (n + 1)
  | .str s => JsLikes.str (s ++ "1")
  | .undef => JsLikes.nan
  | .nan => JsLikes.nan

/-- JS `v > 0`: numeric comparison; comparisons against `NaN` are false. -/
def jsGtZero (v : JsLikes) : Bool :=
  match jsToNum v with
  | some n => decide (0 < n)
  | none => false

/-- JS `v - 1`: numeric coercion then subtraction; `NaN` propagates. -/
def jsMinusOne (v : JsLikes) : JsLikes :=
  match jsToNum v with
  | some n => JsLikes.num (n - 1)
  | none => JsLikes.nan

/-- The like mutation on the raw value space:
    `entry.likes = (entry.likes || 0) + 1`. -/
def likeUpdV (v : JsLikes) : JsLikes := jsPlusOne (jsOrZero v)

/-- The unlike mutation on the raw value space:
    `const current = entry.likes || 0; entry.likes = current > 0 ? current - 1 : 0`. -/
def unlikeUpdV (v : JsLikes) : JsLikes :=
  if jsGtZero (jsOrZero v) then jsMinusOne (jsOrZero v) else JsLikes.num 0

/-- The missing-or-numeric values shared by both models of the likes field. -/
def toJsLikes : Option Int → JsLikes
  | none => JsLikes.undef
  | some n => JsLikes.num n

/-- Is the value a number? -/
def isNumericL : JsLikes → Bool
  | .num _ => true
  | _ => false

/-! Basic facts about case folding and word characters. -/

theorem word_of_ciEq {c d : Char} (h : ciEq c d = true) : isWordChar c = isWordChar d := by
  have h2 : lowerCode c.toNat = lowerCode d.toNat := by simpa [ciEq] using h
  unfold isWordChar
  rw [decide_eq_decide]
  unfold isWordP
  unfold lowerCode at h2
  split at h2 <;> split at h2 <;> omega

theorem ciStarts_length {w s : List Char} (h : ciStarts w s = true) : w.length ≤ s.length := by
  induction w generalizing s with
  | nil => simp
  | cons c w ih =>
    cases s with
    | nil => simp [ciStarts] at h
    | cons d s =>
      simp only [ciStarts, Bool.and_eq_true] at h
      simpa using ih h.2

theorem ciMatch_length {w m : List Char} (h : ciMatch w m = true) : m.length = w.length := by
  simp only [ciMatch, Bool.and_eq_true, beq_iff_eq] at h
  exact h.1.symm

theorem ciMatch_ne_nil {w m : List Char} (hw : w ≠ []) (h : ciMatch w m = true) : m ≠ [] := by
  intro hm
  subst hm
  have := ciMatch_length h
  simp at this
  exact hw (List.length_eq_zero.mp this.symm)

theorem ciStarts_take {w s : List Char} (h : ciStarts w s = true) :
    ciMatch w (List.take w.length s) = true := by
  induction w generalizing s with
  | nil => simp [ciMatch, ciStarts]
  | cons c w ih =>
    cases s with
    | nil => simp [ciStarts] at h
    | cons d s =>
      simp only [ciStarts, Bool.and_eq_true] at h
      have := ih h.2
      simp only [ciMatch, Bool.and_eq_true, beq_iff_eq] at this ⊢
      simp only [List.length_cons, List.take_succ_cons, ciStarts]
      exact ⟨by simpa using this.1, by simp [h.1, this.2]⟩

theorem ciMatch_append_starts {w m : List Char} (h : ciMatch w m = true) (r : List Char) :
    ciStarts w (m ++ r) = true := by
  induction w generalizing m with
  | nil => simp [ciStarts]
  | cons c w ih =>
    cases m with
    | nil =>
      have := ciMatch_length h
      simp at this
    | cons d m =>
      simp only [ciMatch, Bool.and_eq_true, beq_iff_eq, List.length_cons, ciStarts] at h
      simp only [List.cons_append, ciStarts, Bool.and_eq_true]
      exact ⟨h.2.1, ih (by simp [ciMatch, h.2.2]; omega)⟩

theorem ciMatch_mem {w m : List Char} (h : ciMatch w m = true) :
    ∀ d ∈ m, ∃ c ∈ w, ciEq c d = true := by
  induction w generalizing m with
  | nil =>
    have := ciMatch_length h
    simp at this
    subst this
    simp
  | cons c w ih =>
    cases m with
    | nil => simp
    | cons d m =>
      simp only [ciMatch, Bool.and_eq_true, beq_iff_eq, List.length_cons, ciStarts] at h
      intro x hx
      rcases List.mem_cons.mp hx with hx | hx
      · exact ⟨c, by simp, hx ▸ h.2.1⟩
      · obtain ⟨c2, hc2, hci⟩ := ih (by simp [ciMatch, h.2.2]; omega) x hx
        exact ⟨c2, by simp [hc2], hci⟩

theorem ciMatch_head_word {w m : List Char} (h : ciMatch w m = true) :
    isWordOpt m.head? = isWordOpt w.head? := by
  cases w with
  | nil =>
    have := ciMatch_length h
    simp at this
    subst this
    rfl
  | cons c w =>
    cases m with
    | nil =>
      have := ciMatch_length h
      simp at this
    | cons d m =>
      simp only [ciMatch, Bool.and_eq_true, ciStarts] at h
      simp only [List.head?_cons, isWordOpt]
      exact (word_of_ciEq h.2.1).symm

theorem ciMatch_getLast_word {w m : List Char} (h : ciMatch w m = true) :
    isWordOpt m.getLast? = isWordOpt w.getLast? := by
  induction w generalizing m with
  | nil =>
    have := ciMatch_length h
    simp at this
    subst this
    rfl
  | cons c w ih =>
    cases m with
    | nil =>
      have := ciMatch_length h
      simp at this
    | cons d m =>
      have hlen : m.length = w.length := by
        have := ciMatch_length h
        simpa using this
      simp only [ciMatch, Bool.and_eq_true, ciStarts] at h
      cases w with
      | nil =>
        have : m = [] := List.length_eq_zero.mp (by simpa using hlen)
        subst this
        simp only [List.getLast?_singleton, isWordOpt]
        exact (word_of_ciEq h.2.1).symm
      | cons c2 w2 =>
        cases m with
        | nil => simp at hlen
        | cons d2 m2 =>
          rw [List.getLast?_cons_cons, List.getLast?_cons_cons]
          have hlen2 : m2.length = w2.length := by simpa using hlen
          exact ih (by simp [ciMatch, h.2.2]; omega)

/-! Facts about `lastD`. -/

theorem lastD_nil (p : Option Char) : lastD p [] = p := rfl

theorem lastD_cons (p : Option Char) (c : Char) (a : List Char) :
    lastD p (c :: a) = lastD (some c) a := by
  cases a with
  | nil => rfl
  | cons x xs =>
    cases hx : (x :: xs).getLast? with
    | none => exact absurd (List.getLast?_eq_none_iff.mp hx) (by simp)
    | some y => simp [lastD, List.getLast?_cons_cons, hx]

theorem lastD_append (p : Option Char) (u a : List Char) :
    lastD p (u ++ a) = lastD (lastD p u) a := by
  induction u generalizing p with
  | nil => rfl
  | cons c u ih => rw [List.cons_append, lastD_cons, ih, lastD_cons]

theorem lastD_ne_nil {a : List Char} (p : Option Char) (h : a ≠ []) :
    lastD p a = a.getLast? := by
  unfold lastD
  cases hx : a.getLast? with
  | none => exact absurd (List.getLast?_eq_none_iff.mp hx) h
  | some c => rfl

/-! Basic facts about `Occurs`. -/

theorem occurs_nil {w : List Char} (hw : w ≠ []) (p : Option Char) : ¬ Occurs w p [] := by
  rintro ⟨a, m, b, heq, hm, -, -⟩
  have : a ++ m ++ b = [] := heq.symm
  simp only [List.append_eq_nil] at this
  exact ciMatch_ne_nil hw hm this.1.2

theorem occurs_cons_of {w : List Char} {p : Option Char} {c : Char} {t : List Char}
    (h : Occurs w (some c) t) : Occurs w p (c :: t) := by
  obtain ⟨a, m, b, heq, hm, h1, h2⟩ := h
  exact ⟨c :: a, m, b, by simp [heq], hm, by rwa [lastD_cons], h2⟩

theorem occurs_append_of {w : List Char} {p : Option Char} {u t : List Char}
    (h : Occurs w (lastD p u) t) : Occurs w p (u ++ t) := by
  obtain ⟨a, m, b, heq, hm, h1, h2⟩ := h
  refine ⟨u ++ a, m, b, by simp [heq], hm, ?_, h2⟩
  rwa [lastD_append]

theorem matchAt_of_parts {w : List Char} {p : Option Char} {m b : List Char}
    (hw : w ≠ []) (hm : ciMatch w m = true)
    (h1 : isWordOpt p ≠ isWordOpt m.head?)
    (h2 : isWordOpt m.getLast? ≠ isWordOpt b.head?) :
    matchAt w p (m ++ b) = true := by
  have hlen : m.length = w.length := ciMatch_length hm
  have hmne : m ≠ [] := ciMatch_ne_nil hw hm
  simp only [matchAt, Bool.and_eq_true, bne_iff_ne]
  refine ⟨⟨ciMatch_append_starts hm b, ?_⟩, ?_⟩
  · have : (m ++ b).head? = m.head? := by
      cases m with
      | nil => exact absurd rfl hmne
      | cons x xs => rfl
    rw [this]
    exact h1
  · rw [← hlen, List.take_left, List.drop_left]
    exact h2

theorem take_head?_of_pos {n : Nat} (hn : n ≠ 0) (s : List Char) :
    (List.take n s).head? = s.head? := by
  cases s with
  | nil => simp
  | cons c rest =>
    cases n with
    | zero => exact absurd rfl hn
    | succ k => simp [List.take_succ_cons]

theorem matchAt_occurs {w : List Char} {p : Option Char} {s : List Char}
    (hw : w ≠ []) (h : matchAt w p s = true) : Occurs w p s := by
  simp only [matchAt, Bool.and_eq_true, bne_iff_ne] at h
  obtain ⟨⟨h1, h2⟩, h3⟩ := h
  refine ⟨[], List.take w.length s, List.drop w.length s,
    (List.take_append_drop _ _).symm, ciStarts_take h1, ?_, h3⟩
  have hw0 : w.length ≠ 0 := by
    have := List.length_pos.mpr hw
    omega
  rw [lastD_nil, take_head?_of_pos hw0 s]
  exact h2

/-! Fuel irrelevance and one-step equations for the scan. -/

theorem scrubAux_eq_scrubL {w : List Char} (hw : w ≠ []) :
    ∀ fuel p s, s.length ≤ fuel → scrubAux w fuel p s = scrubL w p s := by
  intro fuel
  induction fuel using Nat.strong_induction_on with
  | _ fuel ih =>
    intro p s hs
    cases fuel with
    | zero =>
      have : s = [] := List.length_eq_zero.mp (Nat.le_zero.mp hs)
      subst this
      rfl
    | succ f =>
      cases s with
      | nil => rfl
      | cons c rest =>
        have hwpos : 0 < w.length := List.length_pos.mpr hw
        have hrest : rest.length ≤ f := by simpa using hs
        have hdrop : (List.drop w.length (c :: rest)).length ≤ rest.length := by
          simp only [List.length_drop, List.length_cons]
          omega
        show scrubAux w (f + 1) p (c :: rest) = scrubAux w (rest.length + 1) p (c :: rest)
        simp only [scrubAux]
        split
        · rw [ih f (by omega) _ _ (le_trans hdrop hrest),
            ih rest.length (by omega) _ _ hdrop]
        · rw [ih f (by omega) _ _ hrest, ih rest.length (by omega) _ _ le_rfl]

theorem scrubL_nil (w : List Char) (p : Option Char) : scrubL w p [] = [] := rfl

theorem scrubL_cons {w : List Char} (hw : w ≠ []) (p : Option Char) (c : Char)
    (rest : List Char) :
    scrubL w p (c :: rest) =
      if matchAt w p (c :: rest) then
        mask ++ scrubL w ((List.take w.length (c :: rest)).getLast?)
          (List.drop w.length (c :: rest))
      else
        c :: scrubL w (some c) rest := by
  have hwpos : 0 < w.length := List.length_pos.mpr hw
  have hdrop : (List.drop w.length (c :: rest)).length ≤ rest.length := by
    simp only [List.length_drop, List.length_cons]
    omega
  show scrubAux w (rest.length + 1) p (c :: rest) = _
  simp only [scrubAux]
  split
  · rw [scrubAux_eq_scrubL hw rest.length _ _ hdrop]
  · rw [scrubAux_eq_scrubL hw rest.length _ _ le_rfl]

/-! Structural lemmas about the scan output. -/

theorem star_head_absurd {T m b : List Char} (h : '*' :: T = m ++ b)
    (hm : m ≠ []) (hstar : '*' ∉ m) : False := by
  cases m with
  | nil => exact hm rfl
  | cons e m2 =>
    have he : '*' = e := by simpa using congrArg List.head? h
    subst he
    exact hstar (List.mem_cons_self _ _)

theorem masked_split {T a m b : List Char} (h : mask ++ T = a ++ m ++ b)
    (hm : m ≠ []) (hstar : '*' ∉ m) :
    ∃ a2, a = mask ++ a2 ∧ T = a2 ++ m ++ b := by
  cases a with
  | nil =>
    exfalso
    exact star_head_absurd (by simpa [mask] using h) hm hstar
  | cons x a1 =>
    have hx : '*' = x := by simpa [mask] using congrArg List.head? h
    have h1 : '*' :: '*' :: T = a1 ++ m ++ b := by simpa [mask] using congrArg List.tail h
    cases a1 with
    | nil =>
      exfalso
      exact star_head_absurd (by simpa using h1) hm hstar
    | cons y a2 =>
      have hy : '*' = y := by simpa using congrArg List.head? h1
      have h2 : '*' :: T = a2 ++ m ++ b := by simpa using congrArg List.tail h1
      cases a2 with
      | nil =>
        exfalso
        exact star_head_absurd (by simpa using h2) hm hstar
      | cons z a3 =>
        have hz : '*' = z := by simpa using congrArg List.head? h2
        have h3 : T = a3 ++ m ++ b := by simpa using congrArg List.tail h2
        exact ⟨a3, by simp [mask, ← hx, ← hy, ← hz], h3⟩

theorem scrubL_prefix_reflect {v : List Char} (hv : v ≠ []) :
    ∀ (x : List Char) (p : Option Char) (s y : List Char),
      scrubL v p s = x ++ y → (∀ d ∈ x, d ≠ '*') →
      x = List.take x.length s ∧ y = scrubL v (lastD p x) (List.drop x.length s) := by
  intro x
  induction x with
  | nil =>
    intro p s y h hx
    exact ⟨by simp, by simpa using h.symm⟩
  | cons c x ih =>
    intro p s y h hx
    cases s with
    | nil =>
      rw [scrubL_nil] at h
      exact absurd h.symm (by simp)
    | cons d rest =>
      rw [scrubL_cons hv] at h
      by_cases hmt : matchAt v p (d :: rest) = true
      · rw [if_pos hmt] at h
        have : '*' = c := by simpa [mask] using congrArg List.head? h
        exact absurd this.symm (hx c (by simp))
      · rw [if_neg hmt] at h
        have hd : d = c := by simpa using congrArg List.head? h
        have ht : scrubL v (some d) rest = x ++ y := by simpa using congrArg List.tail h
        obtain ⟨hx1, hy⟩ := ih (some d) rest y ht (fun e he => hx e (by simp [he]))
        subst hd
        refine ⟨?_, ?_⟩
        · simpa [List.take_succ_cons] using hx1
        · rw [lastD_cons]
          simpa [List.drop_succ_cons] using hy

theorem scrubL_head_stable {v : List Char} (hv : v ≠ [])
    (hvs : isWordOpt v.head? = true) {p : Option Char} (hp : isWordOpt p = true)
    (s : List Char) : (scrubL v p s).head? = s.head? := by
  cases s with
  | nil => rfl
  | cons c rest =>
    rw [scrubL_cons hv]
    by_cases hmt : matchAt v p (c :: rest) = true
    · exfalso
      simp only [matchAt, Bool.and_eq_true, bne_iff_ne] at hmt
      obtain ⟨⟨h1, h2⟩, h3⟩ := hmt
      have hv0 : v.length ≠ 0 := by
        have := List.length_pos.mpr hv
        omega
      have hreg := ciStarts_take h1
      have hh := ciMatch_head_word hreg
      rw [take_head?_of_pos hv0] at hh
      rw [hp, hh, hvs] at h2
      exact h2 rfl
    · rw [if_neg hmt]
      rfl

theorem star_not_mem_of_ciMatch {w m : List Char}
    (hsf : ∀ c ∈ w, lowerCode c.toNat ≠ 42) (hm : ciMatch w m = true) : '*' ∉ m := by
  intro hin
  obtain ⟨cw, hcw, hci⟩ := ciMatch_mem hm '*' hin
  have h42 : lowerCode (Char.toNat '*') = 42 := by decide
  rw [ciEq, h42, beq_iff_eq] at hci
  exact hsf cw hcw hci

theorem scrub_kill {w : List Char} (hw : w ≠ [])
    (hws : isWordOpt w.head? = true) (hwe : isWordOpt w.getLast? = true)
    (hsf : ∀ c ∈ w, lowerCode c.toNat ≠ 42) :
    ∀ n (p : Option Char) (s : List Char), s.length ≤ n →
      ¬ Occurs w p (scrubL w p s) := by
  intro n
  induction n using Nat.strong_induction_on with
  | _ n ih =>
    intro p s hs
    cases s with
    | nil =>
      rw [scrubL_nil]
      exact occurs_nil hw p
    | cons c rest =>
      have hwpos : 0 < w.length := List.length_pos.mpr hw
      rw [scrubL_cons hw]
      by_cases hmt : matchAt w p (c :: rest) = true
      · rw [if_pos hmt]
        have hs2len : (List.drop w.length (c :: rest)).length < n := by
          have : rest.length + 1 ≤ n := by simpa using hs
          simp only [List.length_drop, List.length_cons]
          omega
        have hconj := hmt
        simp only [matchAt, Bool.and_eq_true, bne_iff_ne] at hconj
        obtain ⟨⟨hci, hb1⟩, hb2⟩ := hconj
        have hreg : ciMatch w (List.take w.length (c :: rest)) = true := ciStarts_take hci
        have hp2 : isWordOpt ((List.take w.length (c :: rest)).getLast?) = true := by
          rw [ciMatch_getLast_word hreg, hwe]
        intro hOcc
        obtain ⟨a, m, b, heq, hm, h1, h2⟩ := hOcc
        have hmne : m ≠ [] := ciMatch_ne_nil hw hm
        have hstar : '*' ∉ m := star_not_mem_of_ciMatch hsf hm
        obtain ⟨a2, ha, hT⟩ := masked_split heq hmne hstar
        subst ha
        cases a2 with
        | nil =>
          have hTh := scrubL_head_stable hw hws hp2 (List.drop w.length (c :: rest))
          have hmb : (scrubL w ((List.take w.length (c :: rest)).getLast?)
              (List.drop w.length (c :: rest))).head? = m.head? := by
            rw [hT]
            cases m with
            | nil => exact absurd rfl hmne
            | cons mh mt2 => rfl
          have hmh : isWordOpt m.head? = true := by
            rw [ciMatch_head_word hm, hws]
          have hs2h : isWordOpt ((List.drop w.length (c :: rest)).head?) = false := by
            cases hx : isWordOpt ((List.drop w.length (c :: rest)).head?) with
            | false => rfl
            | true => exact absurd (hp2.trans hx.symm) hb2
          have hheads : m.head? = (List.drop w.length (c :: rest)).head? :=
            hmb.symm.trans hTh
          rw [← hheads, hmh] at hs2h
          exact absurd hs2h (by simp)
        | cons a2h a2t =>
          apply ih (List.drop w.length (c :: rest)).length hs2len _ _ le_rfl
          refine ⟨a2h :: a2t, m, b, hT, hm, ?_, h2⟩
          have hl1 : lastD p (mask ++ a2h :: a2t) = (a2h :: a2t).getLast? := by
            rw [lastD_append]
            exact lastD_ne_nil _ (by simp)
          have hl2 : lastD ((List.take w.length (c :: rest)).getLast?) (a2h :: a2t) =
              (a2h :: a2t).getLast? := lastD_ne_nil _ (by simp)
          rw [hl2]
          rw [hl1] at h1
          exact h1
      · rw [if_neg hmt]
        have hrlen : rest.length < n := by
          have : rest.length + 1 ≤ n := by simpa using hs
          omega
        intro hOcc
        obtain ⟨a, m, b, heq, hm, h1, h2⟩ := hOcc
        have hmne : m ≠ [] := ciMatch_ne_nil hw hm
        have hstar : '*' ∉ m := star_not_mem_of_ciMatch hsf hm
        cases a with
        | nil =>
          cases m with
          | nil => exact hmne rfl
          | cons mc m1 =>
            have hmc : c = mc := by simpa using congrArg List.head? heq
            subst hmc
            have hT1 : scrubL w (some c) rest = m1 ++ b := by
              simpa using congrArg List.tail heq
            have hstar1 : ∀ d ∈ m1, d ≠ '*' := by
              intro d hd hde
              subst hde
              exact hstar (List.mem_cons_of_mem _ hd)
            obtain ⟨hm1, hb⟩ := scrubL_prefix_reflect hw m1 (some c) rest b hT1 hstar1
            apply hmt
            have hq : lastD (some c) m1 = (c :: m1).getLast? := by
              rw [← lastD_cons none c m1, lastD_ne_nil none (by simp)]
            have hlast : isWordOpt (lastD (some c) m1) = true := by
              rw [hq, ciMatch_getLast_word hm, hwe]
            have hbh : b.head? = (List.drop m1.length rest).head? := by
              rw [hb]
              exact scrubL_head_stable hw hws hlast _
            have hcr : c :: rest = (c :: m1) ++ List.drop m1.length rest := by
              simp only [List.cons_append, List.cons.injEq, true_and]
              conv_lhs => rw [← List.take_append_drop m1.length rest]
              rw [← hm1]
            rw [hcr]
            apply matchAt_of_parts hw hm
            · rw [lastD_nil] at h1
              exact h1
            · rw [← hbh]
              exact h2
        | cons ah a1 =>
          have hac : c = ah := by simpa using congrArg List.head? heq
          subst hac
          have hT : scrubL w (some c) rest = a1 ++ m ++ b := by
            simpa using congrArg List.tail heq
          apply ih rest.length hrlen (some c) rest le_rfl
          refine ⟨a1, m, b, hT, hm, ?_, h2⟩
          rwa [lastD_cons] at h1

theorem scrub_preserve {w : List Char} (hw : w ≠ [])
    (hws : isWordOpt w.head? = true) (hwe : isWordOpt w.getLast? = true)
    (hsf : ∀ c ∈ w, lowerCode c.toNat ≠ 42)
    {v : List Char} (hv : v ≠ []) (hvs : isWordOpt v.head? = true) :
    ∀ n (p : Option Char) (s : List Char), s.length ≤ n →
      ¬ Occurs w p s → ¬ Occurs w p (scrubL v p s) := by
  intro n
  induction n using Nat.strong_induction_on with
  | _ n ih =>
    intro p s hs hNo
    cases s with
    | nil =>
      rw [scrubL_nil]
      exact hNo
    | cons c rest =>
      have hvpos : 0 < v.length := List.length_pos.mpr hv
      rw [scrubL_cons hv]
      by_cases hmt : matchAt v p (c :: rest) = true
      · rw [if_pos hmt]
        have hs2len : (List.drop v.length (c :: rest)).length < n := by
          have : rest.length + 1 ≤ n := by simpa using hs
          simp only [List.length_drop, List.length_cons]
          omega
        have hregne : List.take v.length (c :: rest) ≠ [] := by
          obtain ⟨k, hk⟩ : ∃ k, v.length = k + 1 := ⟨v.length - 1, by omega⟩
          rw [hk, List.take_succ_cons]
          simp
        have hNo2 : ¬ Occurs w ((List.take v.length (c :: rest)).getLast?)
            (List.drop v.length (c :: rest)) := by
          intro hOcc2
          apply hNo
          have hstep : Occurs w (lastD p (List.take v.length (c :: rest)))
              (List.drop v.length (c :: rest)) := by
            rw [lastD_ne_nil p hregne]
            exact hOcc2
          have := occurs_append_of hstep
          rwa [List.take_append_drop] at this
        have hNoT := ih _ hs2len _ _ le_rfl hNo2
        intro hOcc
        obtain ⟨a, m, b, heq, hm, h1, h2⟩ := hOcc
        have hmne : m ≠ [] := ciMatch_ne_nil hw hm
        have hstar : '*' ∉ m := star_not_mem_of_ciMatch hsf hm
        obtain ⟨a2, ha, hT⟩ := masked_split heq hmne hstar
        subst ha
        cases a2 with
        | nil =>
          have hconj := hmt
          simp only [matchAt, Bool.and_eq_true, bne_iff_ne] at hconj
          obtain ⟨⟨hciv, hvb1⟩, hvb2⟩ := hconj
          by_cases hp2 : isWordOpt ((List.take v.length (c :: rest)).getLast?) = true
          · have hTh := scrubL_head_stable hv hvs hp2 (List.drop v.length (c :: rest))
            have hmb : (scrubL v ((List.take v.length (c :: rest)).getLast?)
                (List.drop v.length (c :: rest))).head? = m.head? := by
              rw [hT]
              cases m with
              | nil => exact absurd rfl hmne
              | cons mh mt2 => rfl
            have hmh : isWordOpt m.head? = true := by
              rw [ciMatch_head_word hm, hws]
            have hs2h : isWordOpt ((List.drop v.length (c :: rest)).head?) = false := by
              cases hx : isWordOpt ((List.drop v.length (c :: rest)).head?) with
              | false => rfl
              | true => exact absurd (hp2.trans hx.symm) hvb2
            have hheads : m.head? = (List.drop v.length (c :: rest)).head? :=
              hmb.symm.trans hTh
            rw [← hheads, hmh] at hs2h
            exact absurd hs2h (by simp)
          · apply hNo2
            have hT2 : scrubL v ((List.take v.length (c :: rest)).getLast?)
                (List.drop v.length (c :: rest)) = m ++ b := by simpa using hT
            have hstarm : ∀ d ∈ m, d ≠ '*' := by
              intro d hd hde
              subst hde
              exact hstar hd
            obtain ⟨hm2, hb⟩ := scrubL_prefix_reflect hv m _ _ b hT2 hstarm
            refine ⟨[], m, List.drop m.length (List.drop v.length (c :: rest)), ?_, hm, ?_, ?_⟩
            · show List.drop v.length (c :: rest) =
                [] ++ m ++ List.drop m.length (List.drop v.length (c :: rest))
              conv_lhs => rw [← List.take_append_drop m.length (List.drop v.length (c :: rest))]
              rw [← hm2]
              simp
            · rw [lastD_nil, ciMatch_head_word hm, hws]
              simp only [Bool.not_eq_true] at hp2
              rw [hp2]
              simp
            · have hlastm : isWordOpt (lastD ((List.take v.length (c :: rest)).getLast?) m) = true := by
                rw [lastD_ne_nil _ hmne, ciMatch_getLast_word hm, hwe]
              have hbh : b.head? =
                  (List.drop m.length (List.drop v.length (c :: rest))).head? := by
                rw [hb]
                exact scrubL_head_stable hv hvs hlastm _
              rw [← hbh]
              exact h2
        | cons a2h a2t =>
          apply hNoT
          refine ⟨a2h :: a2t, m, b, hT, hm, ?_, h2⟩
          have hl1 : lastD p (mask ++ a2h :: a2t) = (a2h :: a2t).getLast? := by
            rw [lastD_append]
            exact lastD_ne_nil _ (by simp)
          have hl2 : lastD ((List.take v.length (c :: rest)).getLast?) (a2h :: a2t) =
              (a2h :: a2t).getLast? := lastD_ne_nil _ (by simp)
          rw [hl2]
          rw [hl1] at h1
          exact h1
      · rw [if_neg hmt]
        have hrlen : rest.length < n := by
          have : rest.length + 1 ≤ n := by simpa using hs
          omega
        have hNoR : ¬ Occurs w (some c) rest := fun h => hNo (occurs_cons_of h)
        have hNoT := ih rest.length hrlen (some c) rest le_rfl hNoR
        intro hOcc
        obtain ⟨a, m, b, heq, hm, h1, h2⟩ := hOcc
        have hmne : m ≠ [] := ciMatch_ne_nil hw hm
        have hstar : '*' ∉ m := star_not_mem_of_ciMatch hsf hm
        cases a with
        | nil =>
          cases m with
          | nil => exact hmne rfl
          | cons mc m1 =>
            have hmc : c = mc := by simpa using congrArg List.head? heq
            subst hmc
            have hT1 : scrubL v (some c) rest = m1 ++ b := by
              simpa using congrArg List.tail heq
            have hstar1 : ∀ d ∈ m1, d ≠ '*' := by
              intro d hd hde
              subst hde
              exact hstar (List.mem_cons_of_mem _ hd)
            obtain ⟨hm1, hb⟩ := scrubL_prefix_reflect hv m1 (some c) rest b hT1 hstar1
            apply hNo
            have hq : lastD (some c) m1 = (c :: m1).getLast? := by
              rw [← lastD_cons none c m1, lastD_ne_nil none (by simp)]
            have hlast : isWordOpt (lastD (some c) m1) = true := by
              rw [hq, ciMatch_getLast_word hm, hwe]
            have hbh : b.head? = (List.drop m1.length rest).head? := by
              rw [hb]
              exact scrubL_head_stable hv hvs hlast _
            have hcr : c :: rest = (c :: m1) ++ List.drop m1.length rest := by
              simp only [List.cons_append, List.cons.injEq, true_and]
              conv_lhs => rw [← List.take_append_drop m1.length rest]
              rw [← hm1]
            refine ⟨[], c :: m1, List.drop m1.length rest, by simpa using hcr, hm, h1, ?_⟩
            rw [← hbh]
            exact h2
        | cons ah a1 =>
          have hac : c = ah := by simpa using congrArg List.head? heq
          subst hac
          have hT : scrubL v (some c) rest = a1 ++ m ++ b := by
            simpa using congrArg List.tail heq
          apply hNoT
          refine ⟨a1, m, b, hT, hm, ?_, h2⟩
          rwa [lastD_cons] at h1

theorem scrub_id_aux {v : List Char} (hv : v ≠ []) :
    ∀ n (p : Option Char) (s : List Char), s.length ≤ n →
      ¬ Occurs v p s → scrubL v p s = s := by
  intro n
  induction n using Nat.strong_induction_on with
  | _ n ih =>
    intro p s hs hNo
    cases s with
    | nil => exact scrubL_nil v p
    | cons c rest =>
      rw [scrubL_cons hv]
      by_cases hmt : matchAt v p (c :: rest) = true
      · exact absurd (matchAt_occurs hv hmt) hNo
      · rw [if_neg hmt]
        have hrlen : rest.length < n := by
          have : rest.length + 1 ≤ n := by simpa using hs
          omega
        rw [ih rest.length hrlen (some c) rest le_rfl (fun h => hNo (occurs_cons_of h))]

theorem scrubL_ne_nil {v : List Char} (hv : v ≠ []) (p : Option Char) {s : List Char}
    (hsne : s ≠ []) : scrubL v p s ≠ [] := by
  cases s with
  | nil => exact absurd rfl hsne
  | cons c rest =>
    rw [scrubL_cons hv]
    by_cases hmt : matchAt v p (c :: rest) = true
    · rw [if_pos hmt]
      simp [mask]
    · rw [if_neg hmt]
      simp

theorem occursB_sound {w : List Char} (hw : w ≠ []) :
    ∀ (p : Option Char) (s : List Char), occursB w p s = false → ¬ Occurs w p s := by
  intro p s
  induction s generalizing p with
  | nil => exact fun _ => occurs_nil hw p
  | cons c rest ih =>
    intro h hOcc
    rw [occursB, Bool.or_eq_false_iff] at h
    obtain ⟨a, m, b, heq, hm, h1, h2⟩ := hOcc
    cases a with
    | nil =>
      have hmt : matchAt w p (c :: rest) = true := by
        rw [show c :: rest = m ++ b by simpa using heq]
        exact matchAt_of_parts hw hm (by rwa [lastD_nil] at h1) h2
      rw [h.1] at hmt
      exact Bool.false_ne_true hmt
    | cons ah a1 =>
      have hac : c = ah := by simpa using congrArg List.head? heq
      subst hac
      have ht : rest = a1 ++ m ++ b := by simpa using congrArg List.tail heq
      exact ih (some c) h.2 ⟨a1, m, b, ht, hm, by rwa [lastD_cons] at h1, h2⟩

theorem str_data_nil_iff (s : String) : s.data = [] ↔ s = "" := by
  constructor
  · intro h
    cases s with
    | mk d =>
      simp only [String.data] at h
      rw [h]
  · intro h
    subst h
    rfl

/-! Denylist facts, discharged by computation. -/

theorem banned_start : ∀ v ∈ banned, v.data ≠ [] ∧ isWordOpt v.data.head? = true := by
  decide

theorem banned_good : ∀ v ∈ banned, v ≠ "f#" →
    v.data ≠ [] ∧ isWordOpt v.data.head? = true ∧ isWordOpt v.data.getLast? = true ∧
      ∀ c ∈ v.data, lowerCode c.toNat ≠ 42 := by
  decide

/-! Lifting the scan lemmas through the `sanitize` fold. -/

theorem foldl_scrub_preserve {w : List Char} (hw : w ≠ [])
    (hws : isWordOpt w.head? = true) (hwe : isWordOpt w.getLast? = true)
    (hsf : ∀ c ∈ w, lowerCode c.toNat ≠ 42) :
    ∀ (l : List String) (t : String),
      (∀ v ∈ l, v.data ≠ [] ∧ isWordOpt v.data.head? = true) →
      ¬ Occurs w none t.data →
      ¬ Occurs w none (List.foldl (fun acc u => scrub u acc) t l).data := by
  intro l
  induction l with
  | nil => exact fun t _ h => h
  | cons v l ih =>
    intro t hl h
    rw [List.foldl_cons]
    apply ih _ (fun u hu => hl u (List.mem_cons_of_mem _ hu))
    obtain ⟨hv0, hvs⟩ := hl v (List.mem_cons_self _ _)
    exact scrub_preserve hw hws hwe hsf hv0 hvs t.data.length none t.data le_rfl h

theorem foldl_scrub_id : ∀ (l : List String) (t : String),
    (∀ v ∈ l, v.data ≠ []) → (∀ v ∈ l, ¬ Occurs v.data none t.data) →
    List.foldl (fun acc u => scrub u acc) t l = t := by
  intro l
  induction l with
  | nil => exact fun t _ _ => rfl
  | cons v l ih =>
    intro t hl hno
    rw [List.foldl_cons]
    have ht : scrub v t = t := by
      show String.mk (scrubL v.data none t.data) = t
      rw [scrub_id_aux (hl v (List.mem_cons_self _ _)) t.data.length none t.data le_rfl
        (hno v (List.mem_cons_self _ _))]
    rw [ht]
    exact ih t (fun u hu => hl u (List.mem_cons_of_mem _ hu))
      (fun u hu => hno u (List.mem_cons_of_mem _ hu))

theorem foldl_scrub_ne_empty : ∀ (l : List String) (t : String),
    t.data ≠ [] → (∀ v ∈ l, v.data ≠ []) →
    (List.foldl (fun acc u => scrub u acc) t l).data ≠ [] := by
  intro l
  induction l with
  | nil => exact fun t h _ => h
  | cons v l ih =>
    intro t ht hl
    rw [List.foldl_cons]
    apply ih _ _ (fun u hu => hl u (List.mem_cons_of_mem _ hu))
    exact scrubL_ne_nil (hl v (List.mem_cons_self _ _)) none ht

theorem sanitize_empty_iff (s : String) : sanitize s = "" ↔ s = "" := by
  constructor
  · intro h
    by_contra hne
    have hd : s.data ≠ [] := fun hx => hne ((str_data_nil_iff s).mp hx)
    have := foldl_scrub_ne_empty banned s hd (fun v hv => (banned_start v hv).1)
    rw [show List.foldl (fun acc u => scrub u acc) s banned = sanitize s from rfl, h] at this
    exact this rfl
  · intro h
    subst h
    decide

/-- C2: amended. For every denylisted term other than `"f#"` (each such term
    begins and ends with a word character), the sanitizer output contains no
    whole-word, case-insensitive occurrence of the term — every standalone
    occurrence has been masked; and a message with no whole-word occurrence of
    any denylisted term (in particular one containing terms only as substrings
    of longer words) is returned unchanged. The spec scenario
    "I love Go and Rust" is masked to "I love *** and ***". -/
theorem C2_sanitizer_whole_word :
    (∀ w : String, w ∈ banned → w ≠ "f#" → ∀ s : String,
      ¬ Occurs w.data none (sanitize s).data) ∧
    (∀ s : String, (∀ v ∈ banned, ¬ Occurs v.data none s.data) → sanitize s = s) ∧
    sanitize "I love Go and Rust" = "I love *** and ***" := by
  refine ⟨?_, ?_, ?_⟩
  · intro w hmem hne s
    obtain ⟨hw0, hws, hwe, hsf⟩ := banned_good w hmem hne
    obtain ⟨l1, l2, hsplit⟩ := List.append_of_mem hmem
    unfold sanitize
    rw [hsplit, List.foldl_append, List.foldl_cons]
    apply foldl_scrub_preserve hw0 hws hwe hsf
    · intro v hv
      exact banned_start v
        (by rw [hsplit]; exact List.mem_append_right _ (List.mem_cons_of_mem _ hv))
    · exact scrub_kill hw0 hws hwe hsf _ none _ le_rfl
  · intro s hno
    exact foldl_scrub_id banned s (fun v hv => (banned_start v hv).1) hno
  · decide

/-- C2 witness: a concrete application of both universally quantified parts. -/
theorem C2_sanitizer_whole_word_witness :
    (¬ Occurs "go".data none (sanitize "I love Go and Rust").data) ∧
    sanitize "zz top" = "zz top" := by
  constructor
  · exact C2_sanitizer_whole_word.1 "go" (by decide) (by decide) "I love Go and Rust"
  · apply C2_sanitizer_whole_word.2.1
    intro v hv
    have hall : ∀ u ∈ banned, occursB u.data none ("zz top").data = false := by decide
    exact occursB_sound (banned_start v hv).1 none _ (hall v hv)

/-- C2 counterexample: the denylisted term `"f#"` standing alone as a word is
    not masked — the trailing word boundary `\b` cannot match after `#` when a
    non-word character (or the end of the string) follows, so the claim as
    stated fails for this term. -/
theorem C2_counterexample :
    "f#" ∈ banned ∧ sanitize "i enjoy f# daily" = "i enjoy f# daily" := by
  exact ⟨by decide, by decide⟩

/-! Facts about `updateFirst` (the findIndex-and-mutate pattern). -/

theorem updateFirst_spec (p : Entry → Bool) (f : Entry → Entry) :
    ∀ (pre : List Entry) (e : Entry) (post : List Entry),
      (∀ x ∈ pre, p x = false) → p e = true →
      updateFirst p f (pre ++ e :: post) = some (pre ++ f e :: post) := by
  intro pre
  induction pre with
  | nil =>
    intro e post _ he
    simp [updateFirst, he]
  | cons x xs ih =>
    intro e post hpre he
    rw [List.cons_append, updateFirst]
    rw [hpre x (List.mem_cons_self _ _)]
    simp only [Bool.false_eq_true, if_false, List.cons_append]
    rw [ih e post (fun y hy => hpre y (List.mem_cons_of_mem _ hy)) he]
    rfl

theorem updateFirst_none (p : Entry → Bool) (f : Entry → Entry) :
    ∀ (l : List Entry), (∀ x ∈ l, p x = false) → updateFirst p f l = none := by
  intro l
  induction l with
  | nil => intro _; rfl
  | cons x xs ih =>
    intro h
    rw [updateFirst, h x (List.mem_cons_self _ _)]
    simp only [Bool.false_eq_true, if_false]
    rw [ih (fun y hy => h y (List.mem_cons_of_mem _ hy))]
    rfl

theorem updateFirst_some (p : Entry → Bool) (f : Entry → Entry) :
    ∀ (l l2 : List Entry), updateFirst p f l = some l2 →
      ∃ pre e post, l = pre ++ e :: post ∧ l2 = pre ++ f e :: post ∧ p e = true ∧
        ∀ x ∈ pre, p x = false := by
  intro l
  induction l with
  | nil =>
    intro l2 h
    simp [updateFirst] at h
  | cons x xs ih =>
    intro l2 h
    rw [updateFirst] at h
    by_cases hx : p x = true
    · rw [if_pos hx] at h
      have : f x :: xs = l2 := by simpa using h
      exact ⟨[], x, xs, by simp, by simp [← this], hx, by simp⟩
    · rw [if_neg hx] at h
      rw [Option.map_eq_some'] at h
      obtain ⟨l3, h3, hl⟩ := h
      obtain ⟨pre, e, post, hxs, hl3, hpe, hpre⟩ := ih l3 h3
      refine ⟨x :: pre, e, post, by simp [hxs], by simp [← hl, hl3], hpe, ?_⟩
      intro y hy
      rcases List.mem_cons.mp hy with rfl | hy
      · exact Bool.not_eq_true _ |>.mp hx
      · exact hpre y hy

/-- C5: for an id present in the collection (first match `e` after a prefix of
    non-matching entries), like followed by unlike returns the entry's likes
    counter to its prior value floored at zero, leaving all other entries
    untouched; and unlike alone on an entry whose likes is 0 leaves the
    collection unchanged. -/
theorem C5_like_unlike_roundtrip (st : List Entry) (id : String) (pre post : List Entry)
    (e : Entry) (hst : st = pre ++ e :: post) (hpre : ∀ x ∈ pre, x.id ≠ some id)
    (he : e.id = some id) :
    (unlikeOp (likeOp st id).1 id).1 =
      pre ++ { e with likes := some (max (e.likes.getD 0) 0) } :: post ∧
    (e.likes = some 0 → (unlikeOp st id).1 = st) := by
  have hpreb : ∀ x ∈ pre, (x.id == some id) = false :=
    fun x hx => beq_eq_false_iff_ne.mpr (hpre x hx)
  have heb : (e.id == some id) = true := beq_iff_eq.mpr he
  have h1 : likeOp st id = (pre ++ likeUpd e :: post, true) := by
    unfold likeOp
    rw [hst, updateFirst_spec _ _ pre e post hpreb heb]
  constructor
  · rw [h1]
    have heb2 : ((likeUpd e).id == some id) = true := heb
    show (unlikeOp (pre ++ likeUpd e :: post) id).1 = _
    unfold unlikeOp
    rw [updateFirst_spec _ _ pre (likeUpd e) post hpreb heb2]
    show pre ++ unlikeUpd (likeUpd e) :: post = _
    have hval : (if (0 : Int) < e.likes.getD 0 + 1 then e.likes.getD 0 + 1 - 1 else 0) =
        max (e.likes.getD 0) 0 := by
      split <;> omega
    have hupd : unlikeUpd (likeUpd e) = { e with likes := some (max (e.likes.getD 0) 0) } := by
      unfold unlikeUpd likeUpd
      simp only [Option.getD_some]
      rw [hval]
    rw [hupd]
  · intro h0
    have hue : unlikeUpd e = e := by
      unfold unlikeUpd
      rw [h0]
      cases e
      simp_all
    unfold unlikeOp
    rw [hst, updateFirst_spec _ _ pre e post hpreb heb, hue]

/-- C5 witness: concrete application at a one-entry collection. -/
theorem C5_like_unlike_roundtrip_witness :
    (unlikeOp (likeOp [entryA] "a").1 "a").1 =
      [{ entryA with likes := some (max (entryA.likes.getD 0) 0) }] ∧
    (entryA.likes = some 0 → (unlikeOp [entryA] "a").1 = [entryA]) := by
  have h := C5_like_unlike_roundtrip [entryA] "a" [] [] entryA (by simp) (by simp) (by decide)
  simpa using h

theorem updV_agrees (o : Option Int) :
    likeUpdV (toJsLikes o) = JsLikes.num (o.getD 0 + 1) ∧
    unlikeUpdV (toJsLikes o) =
      JsLikes.num (if 0 < o.getD 0 then o.getD 0 - 1 else 0) := by
  cases o with
  | none => exact ⟨rfl, rfl⟩
  | some n =>
    by_cases hn : n = 0
    · subst hn
      exact ⟨rfl, rfl⟩
    · have ht : jsTruthyL (JsLikes.num n) = true := by simp [jsTruthyL, hn]
      constructor
      · simp [likeUpdV, jsOrZero, ht, jsPlusOne, toJsLikes]
      · simp only [toJsLikes, unlikeUpdV, jsOrZero, ht, if_true, jsGtZero, jsToNum,
          Option.getD_some]
        by_cases h0 : 0 < n
        · simp [h0, jsMinusOne, jsToNum]
        · simp [h0]

/-- C10: amended. Like and unlike never fail on any likes value, but they
    treat only a FALSY value (missing, NaN, 0, the empty string) as 0: like
    then stores the number 1 and unlike the number 0, numeric and
    non-negative. At the collection level, like and unlike on the first entry
    matching the id whose likes field is missing store 1 and 0 respectively.
    (A truthy non-numeric likes is NOT treated as 0 — see the
    counterexample.) -/
theorem C10_like_unlike_on_falsy :
    (∀ v : JsLikes, jsTruthyL v = false →
      likeUpdV v = JsLikes.num 1 ∧ unlikeUpdV v = JsLikes.num 0) ∧
    (∀ (st : List Entry) (id : String) (pre post : List Entry) (e : Entry),
      st = pre ++ e :: post → (∀ x ∈ pre, x.id ≠ some id) → e.id = some id →
      e.likes = none →
      (likeOp st id).1 = pre ++ { e with likes := some 1 } :: post ∧
      (unlikeOp st id).1 = pre ++ { e with likes := some 0 } :: post) := by
  constructor
  · intro v hv
    cases v with
    | undef => exact ⟨rfl, rfl⟩
    | nan => exact ⟨rfl, rfl⟩
    | num n =>
      have : n = 0 := by simpa [jsTruthyL] using hv
      subst this
      exact ⟨rfl, rfl⟩
    | str s =>
      have : s = "" := by simpa [jsTruthyL] using hv
      subst this
      exact ⟨rfl, rfl⟩
  · intro st id pre post e hst hpre he hl
    have hpreb : ∀ x ∈ pre, (x.id == some id) = false :=
      fun x hx => beq_eq_false_iff_ne.mpr (hpre x hx)
    have heb : (e.id == some id) = true := beq_iff_eq.mpr he
    constructor
    · unfold likeOp
      rw [hst, updateFirst_spec _ _ pre e post hpreb heb]
      show pre ++ likeUpd e :: post = _
      have : likeUpd e = { e with likes := some 1 } := by
        unfold likeUpd
        rw [hl]
        rfl
      rw [this]
    · unfold unlikeOp
      rw [hst, updateFirst_spec _ _ pre e post hpreb heb]
      show pre ++ unlikeUpd e :: post = _
      have : unlikeUpd e = { e with likes := some 0 } := by
        unfold unlikeUpd
        rw [hl]
        rfl
      rw [this]

/-- C10 witness: the falsy cases at a concrete missing value and at a record
    loaded without normalization whose likes field is absent. -/
theorem C10_like_unlike_on_falsy_witness :
    (likeUpdV JsLikes.undef = JsLikes.num 1 ∧
      unlikeUpdV JsLikes.undef = JsLikes.num 0) ∧
    (likeOp [kvRaw] "k1").1 = [{ kvRaw with likes := some 1 }] ∧
    (unlikeOp [kvRaw] "k1").1 = [{ kvRaw with likes := some 0 }] := by
  refine ⟨C10_like_unlike_on_falsy.1 JsLikes.undef rfl, ?_⟩
  exact C10_like_unlike_on_falsy.2 [kvRaw] "k1" [] [] kvRaw (by simp) (by simp)
    (by decide) rfl

/-- C10 counterexample: a truthy non-numeric likes value — the string "3",
    as the unnormalized KV path can supply — is not treated as 0: like
    computes the string concatenation "3" + 1 = "31", a non-numeric result,
    and unlike computes the numeric coercion "3" - 1 = 2 rather than 0. -/
theorem C10_counterexample :
    likeUpdV (JsLikes.str "3") = JsLikes.str "31" ∧
    isNumericL (likeUpdV (JsLikes.str "3")) = false ∧
    unlikeUpdV (JsLikes.str "3") = JsLikes.num 2 := by
  exact ⟨by decide, by decide, by decide⟩

/-- C6: the predicate "every entry's likes is a numeric, non-negative value"
    is an invariant: it is preserved by like, unlike, delete and add from any
    state satisfying it, and every entry added by `receiveEntry` starts with
    likes 0. -/
theorem C6_likes_nonneg_invariant (st : List Entry) (h : LikesOk st) :
    (∀ id, LikesOk (likeOp st id).1 ∧ LikesOk (unlikeOp st id).1) ∧
    (∀ id owner referer, LikesOk (deleteHandler st id owner referer).1) ∧
    (∀ nT eT owner now rnd, LikesOk (receiveEntry st nT eT owner now rnd).1) ∧
    (∀ nT eT owner now rnd, ∀ e ∈ (receiveEntry st nT eT owner now rnd).1,
      e ∈ st ∨ e.likes = some 0) := by
  refine ⟨?_, ?_, ?_, ?_⟩
  · intro id
    constructor
    · unfold likeOp
      cases hu : updateFirst (fun e => e.id == some id) likeUpd st with
      | none => exact h
      | some st2 =>
        obtain ⟨pre, e, post, hsteq, hst2, -, -⟩ := updateFirst_some _ _ st st2 hu
        subst hsteq hst2
        intro x hx
        rcases List.mem_append.mp hx with hx | hx
        · exact h x (List.mem_append_left _ hx)
        · rcases List.mem_cons.mp hx with rfl | hx
          · obtain ⟨n, hn, hnn⟩ := h e (List.mem_append_right _ (List.mem_cons_self _ _))
            refine ⟨e.likes.getD 0 + 1, rfl, ?_⟩
            rw [hn]
            simpa using by omega
          · exact h x (List.mem_append_right _ (List.mem_cons_of_mem _ hx))
    · unfold unlikeOp
      cases hu : updateFirst (fun e => e.id == some id) unlikeUpd st with
      | none => exact h
      | some st2 =>
        obtain ⟨pre, e, post, hsteq, hst2, -, -⟩ := updateFirst_some _ _ st st2 hu
        subst hsteq hst2
        intro x hx
        rcases List.mem_append.mp hx with hx | hx
        · exact h x (List.mem_append_left _ hx)
        · rcases List.mem_cons.mp hx with rfl | hx
          · refine ⟨if 0 < e.likes.getD 0 then e.likes.getD 0 - 1 else 0, rfl, ?_⟩
            split <;> omega
          · exact h x (List.mem_append_right _ (List.mem_cons_of_mem _ hx))
  · intro id owner referer x hx
    have : x ∈ st := List.mem_of_mem_filter hx
    exact h x this
  · intro nT eT owner now rnd x hx
    by_cases hc : sanitize (jsOrS (eT.map jsTrim) "") = ""
    · simp only [receiveEntry, hc, if_pos] at hx
      exact h x hx
    · simp only [receiveEntry, if_neg hc] at hx
      rcases List.mem_append.mp hx with hx | hx
      · exact h x hx
      · rcases List.mem_cons.mp hx with rfl | hx
        · exact ⟨0, rfl, le_rfl⟩
        · simp at hx
  · intro nT eT owner now rnd x hx
    by_cases hc : sanitize (jsOrS (eT.map jsTrim) "") = ""
    · simp only [receiveEntry, hc, if_pos] at hx
      exact Or.inl hx
    · simp only [receiveEntry, if_neg hc] at hx
      rcases List.mem_append.mp hx with hx | hx
      · exact Or.inl hx
      · rcases List.mem_cons.mp hx with rfl | hx
        · exact Or.inr rfl
        · simp at hx

/-- C6 witness: concrete application at a singleton satisfying the
    invariant. -/
theorem C6_likes_nonneg_invariant_witness :
    LikesOk (likeOp [entryA] "a").1 := by
  have h := C6_likes_nonneg_invariant [entryA] (by
    intro e he
    rw [List.mem_singleton.mp he]
    exact ⟨0, rfl, le_rfl⟩)
  exact (h.1 "a").1

theorem delete_filter_eq_self (st : List Entry) (id owner : String)
    (hno : ∀ e ∈ st, ¬(e.id = some id ∧ e.owner = some owner)) :
    st.filter (fun e => !(e.id == some id && e.owner == some owner)) = st := by
  apply List.filter_eq_self.mpr
  intro e he
  simp only [Bool.not_eq_eq_eq_not, Bool.not_true, Bool.and_eq_false_iff]
  rcases Decidable.em (e.id = some id) with hid | hid
  · right
    exact beq_eq_false_iff_ne.mpr (fun hown => hno e he ⟨hid, hown⟩)
  · left
    exact beq_eq_false_iff_ne.mpr hid

/-- C7: persistence is invoked exactly for effective mutations. Save is
    called whenever the collection actually changed, and the enumerated no-op
    mutations (like/unlike of an absent id, delete with no id+owner match,
    add whose sanitized text is empty) leave the collection unchanged and make
    no persistence call. -/
theorem C7_save_iff_changed (st : List Entry) (id owner : String) (referer : Option String)
    (nT eT : Option String) (cowner : String) (now : Int) (rnd : String) :
    ((likeOp st id).1 ≠ st → (likeOp st id).2 = true) ∧
    ((∀ e ∈ st, e.id ≠ some id) → likeOp st id = (st, false)) ∧
    ((unlikeOp st id).1 ≠ st → (unlikeOp st id).2 = true) ∧
    ((∀ e ∈ st, e.id ≠ some id) → unlikeOp st id = (st, false)) ∧
    ((deleteHandler st id owner referer).1 ≠ st →
      (deleteHandler st id owner referer).2.1 = true) ∧
    ((∀ e ∈ st, ¬(e.id = some id ∧ e.owner = some owner)) →
      (deleteHandler st id owner referer).1 = st ∧
      (deleteHandler st id owner referer).2.1 = false) ∧
    ((receiveEntry st nT eT cowner now rnd).1 ≠ st →
      (receiveEntry st nT eT cowner now rnd).2.1 = true) ∧
    (sanitize (jsOrS (eT.map jsTrim) "") = "" →
      (receiveEntry st nT eT cowner now rnd).1 = st ∧
      (receiveEntry st nT eT cowner now rnd).2.1 = false) := by
  refine ⟨?_, ?_, ?_, ?_, ?_, ?_, ?_, ?_⟩
  · unfold likeOp
    cases hu : updateFirst (fun e => e.id == some id) likeUpd st with
    | none => exact fun hne => absurd rfl hne
    | some st2 => exact fun _ => rfl
  · intro hab
    unfold likeOp
    rw [updateFirst_none _ _ st (fun x hx => beq_eq_false_iff_ne.mpr (hab x hx))]
  · unfold unlikeOp
    cases hu : updateFirst (fun e => e.id == some id) unlikeUpd st with
    | none => exact fun hne => absurd rfl hne
    | some st2 => exact fun _ => rfl
  · intro hab
    unfold unlikeOp
    rw [updateFirst_none _ _ st (fun x hx => beq_eq_false_iff_ne.mpr (hab x hx))]
  · intro hne
    show ((st.filter fun e => !(e.id == some id && e.owner == some owner)).length
      != st.length) = true
    rw [bne_iff_ne]
    intro hlen
    exact hne (List.Sublist.eq_of_length (List.filter_sublist st) hlen)
  · intro hno
    have hfil := delete_filter_eq_self st id owner hno
    constructor
    · exact hfil
    · show ((st.filter fun e => !(e.id == some id && e.owner == some owner)).length
        != st.length) = false
      rw [hfil]
      simp
  · by_cases hc : sanitize (jsOrS (eT.map jsTrim) "") = ""
    · intro hne
      exact absurd (by simp [receiveEntry, hc]) hne
    · intro _
      simp [receiveEntry, hc]
  · intro hc
    constructor
    · simp [receiveEntry, hc]
    · simp [receiveEntry, hc]

/-- C7 witness: all no-op branches at a concrete one-entry collection where
    nothing matches. -/
theorem C7_save_iff_changed_witness :
    likeOp [entryA] "zzz" = ([entryA], false) ∧
    unlikeOp [entryA] "zzz" = ([entryA], false) ∧
    (deleteHandler [entryA] "a" "other" none).1 = [entryA] ∧
    (deleteHandler [entryA] "a" "other" none).2.1 = false ∧
    (receiveEntry [entryA] (some "Ann") none "c1" 5 "x").1 = [entryA] ∧
    (receiveEntry [entryA] (some "Ann") none "c1" 5 "x").2.1 = false := by
  have h := C7_save_iff_changed [entryA] "zzz" "other" none (some "Ann") none "c1" 5 "x"
  have h2 := C7_save_iff_changed [entryA] "a" "other" none (some "Ann") none "c1" 5 "x"
  have hdel := h2.2.2.2.2.2.1 (by decide)
  have hadd := h.2.2.2.2.2.2.2 (by decide)
  exact ⟨h.2.1 (by decide), h.2.2.2.1 (by decide), hdel.1, hdel.2, hadd.1, hadd.2⟩

/-- C1: the delete handler removes an entry only when both the id and the
    requesting client's owner identifier match; when no entry matches both,
    the collection is unchanged and no save happens; and the outward redirect
    is identical for every id/owner pair, so an unauthorized delete is
    indistinguishable from a delete of a nonexistent id. -/
theorem C1_delete_requires_owner (st : List Entry) (id owner : String)
    (referer : Option String) :
    (∀ e ∈ st, e ∉ (deleteHandler st id owner referer).1 →
      e.id = some id ∧ e.owner = some owner) ∧
    (∀ e ∈ st, e.id = some id → e.owner = some owner →
      e ∉ (deleteHandler st id owner referer).1) ∧
    ((∀ e ∈ st, ¬(e.id = some id ∧ e.owner = some owner)) →
      (deleteHandler st id owner referer).1 = st ∧
      (deleteHandler st id owner referer).2.1 = false) ∧
    (∀ id2 owner2, (deleteHandler st id2 owner2 referer).2.2 =
      (deleteHandler st id owner referer).2.2) := by
  refine ⟨?_, ?_, ?_, ?_⟩
  · intro e he hnot
    by_contra hboth
    apply hnot
    show e ∈ st.filter fun x => !(x.id == some id && x.owner == some owner)
    rw [List.mem_filter]
    refine ⟨he, ?_⟩
    simp only [Bool.not_eq_eq_eq_not, Bool.not_true, Bool.and_eq_false_iff]
    rcases Decidable.em (e.id = some id) with hid | hid
    · right
      exact beq_eq_false_iff_ne.mpr (fun hown => hboth ⟨hid, hown⟩)
    · left
      exact beq_eq_false_iff_ne.mpr hid
  · intro e he hid hown hmem
    have := (List.mem_filter.mp hmem).2
    simp [hid, hown] at this
  · intro hno
    have hfil := delete_filter_eq_self st id owner hno
    refine ⟨hfil, ?_⟩
    show ((st.filter fun e => !(e.id == some id && e.owner == some owner)).length
      != st.length) = false
    rw [hfil]
    simp
  · intro id2 owner2
    rfl

/-- C1 witness: an owner-matched delete removes the entry, a mismatched owner
    leaves the collection unchanged, and the redirect is the same as for a
    nonexistent id. -/
theorem C1_delete_requires_owner_witness :
    (entryA ∉ (deleteHandler [entryA] "a" "c1" none).1) ∧
    (deleteHandler [entryA] "a" "other" none).1 = [entryA] ∧
    (deleteHandler [entryA] "nope" "c1" none).2.2 =
      (deleteHandler [entryA] "a" "other" none).2.2 := by
  have h1 := C1_delete_requires_owner [entryA] "a" "c1" none
  have h2 := C1_delete_requires_owner [entryA] "a" "other" none
  exact ⟨h1.2.1 entryA (List.mem_singleton_self _) (by decide) (by decide),
    (h2.2.2.1 (by decide)).1, h2.2.2.2 "nope" "c1"⟩

/-- C3: amended. The sanitized text is empty exactly when the trimmed raw text
    was already empty or missing (sanitization never empties a non-empty
    string); in that case no entry is created and no save happens, and the
    handler redirects to the listing in every case, surfacing no error. Text
    consisting solely of denylisted content becomes the non-empty mask and
    therefore DOES create an entry (see the counterexample). -/
theorem C3_empty_after_sanitize (st : List Entry) (nT eT : Option String)
    (owner : String) (now : Int) (rnd : String) :
    (sanitize (jsOrS (eT.map jsTrim) "") = "" ↔ jsOrS (eT.map jsTrim) "" = "") ∧
    (sanitize (jsOrS (eT.map jsTrim) "") = "" →
      receiveEntry st nT eT owner now rnd = (st, false, "/guestbook")) ∧
    (receiveEntry st nT eT owner now rnd).2.2 = "/guestbook" := by
  refine ⟨sanitize_empty_iff _, ?_, ?_⟩
  · intro h
    simp [receiveEntry, h]
  · by_cases h : sanitize (jsOrS (eT.map jsTrim) "") = "" <;> simp [receiveEntry, h]

/-- C3 witness: a whitespace-only submission is dropped with no save and the
    usual redirect. -/
theorem C3_empty_after_sanitize_witness :
    receiveEntry [entryA] (some "Ann") (some "   ") "c1" 5 "x" =
      ([entryA], false, "/guestbook") :=
  (C3_empty_after_sanitize [entryA] (some "Ann") (some "   ") "c1" 5 "x").2.1 (by decide)

/-- C3 counterexample: text consisting solely of a denylisted term sanitizes
    to the non-empty mask "***", so the submission is NOT dropped — an entry
    is created and persisted, contrary to the claim's parenthetical. -/
theorem C3_counterexample :
    sanitize "python" = "***" ∧
    receiveEntry [] (some "Ann") (some "python") "client" 5 "x1" =
      ([{ id := some "5-x1", name := some "Ann", text := some "***",
          timestamp := some 5, likes := some 0, owner := some "client" }],
        true, "/guestbook") := by
  exact ⟨by decide, by decide⟩

/-- C9: the submitted name is stored verbatim (after trim / default), never
    passed through the denylist replacement; only the message text is
    sanitized. In particular every denylisted term submitted as the name of an
    entry is stored unmasked. -/
theorem C9_name_not_sanitized (st : List Entry) (nT eT : Option String) (owner : String)
    (now : Int) (rnd : String) :
    ((receiveEntry st nT eT owner now rnd).1 = st ∨
      (receiveEntry st nT eT owner now rnd).1 = st ++
        [{ id := some (toString now ++ "-" ++ rnd),
           name := some (jsOrS (nT.map jsTrim) "Anonymous"),
           text := some (sanitize (jsOrS (eT.map jsTrim) "")),
           timestamp := some now, likes := some 0, owner := some owner }]) ∧
    (∀ w ∈ banned, (receiveEntry st (some w) (some "hello") owner now rnd).1 = st ++
      [{ id := some (toString now ++ "-" ++ rnd), name := some w, text := some "hello",
         timestamp := some now, likes := some 0, owner := some owner }]) := by
  constructor
  · by_cases h : sanitize (jsOrS (eT.map jsTrim) "") = ""
    · left
      simp [receiveEntry, h]
    · right
      simp [receiveEntry, h]
  · intro w hw
    have htrim : ∀ u ∈ banned, jsTrim u = u ∧ u ≠ "" := by decide
    obtain ⟨ht, hne⟩ := htrim w hw
    have hname : jsOrS (some (jsTrim w)) "Anonymous" = w := by
      rw [ht]
      simp [jsOrS, hne]
    have hhello : sanitize (jsOrS (some (jsTrim "hello")) "") = "hello" := by decide
    simp [receiveEntry, hhello, hname]

/-- C9 witness: the denylisted name "python" is stored unmasked while the same
    term in the text would be masked. -/
theorem C9_name_not_sanitized_witness :
    (receiveEntry [] (some "python") (some "hello") "c1" 5 "x").1 =
      [{ id := some "5-x", name := some "python", text := some "hello",
         timestamp := some 5, likes := some 0, owner := some "c1" }] := by
  have h := (C9_name_not_sanitized [] (some "python") (some "hello") "c1" 5 "x").2
    "python" (by decide)
  simpa using h

theorem normalizeList_mem (now : Int) (rnd : Nat → String) :
    ∀ (k : Nat) (es : List Entry) (e2 : Entry), e2 ∈ normalizeList now rnd k es →
      ∃ i raw, raw ∈ es ∧ e2 = normalizeEntry now (rnd i) raw := by
  intro k es
  induction es generalizing k with
  | nil =>
    intro e2 h
    simp [normalizeList] at h
  | cons e rest ih =>
    intro e2 h
    rw [normalizeList] at h
    rcases List.mem_cons.mp h with rfl | h
    · exact ⟨k, e, List.mem_cons_self _ _, rfl⟩
    · obtain ⟨i, raw, hraw, heq⟩ := ih (k + 1) e2 h
      exact ⟨i, raw, List.mem_cons_of_mem _ hraw, heq⟩

/-- C4: amended. With the file backend selected, every loaded record is
    normalized: a missing timestamp defaults to the load time, a missing or
    empty id is synthesized from the timestamp plus the random suffix, a
    missing or non-numeric likes defaults to 0, and name, text and owner are
    carried through as-is. (The remote KV path returns records unnormalized;
    see the counterexample.) -/
theorem C4_file_load_normalizes (c : LoadCfg) (kv : KVData) (fd : FileData)
    (now : Int) (rnd : Nat → String) :
    (c.useKV = false → loadEntries c kv fd now rnd = loadFromFile fd now rnd) ∧
    (∀ es, ∀ e2 ∈ loadFromFile (FileData.array es) now rnd,
      ∃ i raw, raw ∈ es ∧ e2 = normalizeEntry now (rnd i) raw) ∧
    (∀ r raw, (normalizeEntry now r raw).timestamp = some (raw.timestamp.getD now) ∧
      (normalizeEntry now r raw).likes = some (raw.likes.getD 0) ∧
      (normalizeEntry now r raw).owner = raw.owner ∧
      (normalizeEntry now r raw).name = raw.name ∧
      (normalizeEntry now r raw).text = raw.text ∧
      ((raw.id = none ∨ raw.id = some "") →
        (normalizeEntry now r raw).id =
          some (toString (raw.timestamp.getD now) ++ "-" ++ r)) ∧
      (∀ sid, raw.id = some sid → sid ≠ "" →
        (normalizeEntry now r raw).id = some sid)) := by
  refine ⟨?_, ?_, ?_⟩
  · intro h
    simp [loadEntries, h]
  · intro es e2 h
    exact normalizeList_mem now rnd 0 es e2 h
  · intro r raw
    refine ⟨rfl, rfl, rfl, rfl, rfl, ?_, ?_⟩
    · intro hid
      rcases hid with hid | hid <;> simp [normalizeEntry, jsOrS, hid]
    · intro sid hsid hne
      simp [normalizeEntry, jsOrS, hsid, hne]

/-- C4 witness: a file-backend load and the normalization of a legacy record
    whose likes field is missing. -/
theorem C4_file_load_normalizes_witness :
    loadEntries { useKV := false, kvUrl := none, kvToken := none } KVData.throwing
      (FileData.array [kvRaw]) 0 (fun _ => "r") =
      loadFromFile (FileData.array [kvRaw]) 0 (fun _ => "r") ∧
    (normalizeEntry 0 "r" kvRaw).likes = some 0 := by
  constructor
  · exact (C4_file_load_normalizes _ KVData.throwing (FileData.array [kvRaw]) 0
      (fun _ => "r")).1 rfl
  · have h := ((C4_file_load_normalizes { useKV := false, kvUrl := none, kvToken := none }
      KVData.throwing FileData.absent 0 (fun _ => "r")).2.2 "r" kvRaw).2.1
    simpa using h

/-- C4 counterexample: with the remote KV backend selected and responding, the
    loaded record is returned as-is — its missing likes field is NOT defaulted
    to 0, contradicting the claim that every record returned by load is
    normalized regardless of backend. -/
theorem C4_counterexample :
    loadEntries { useKV := true, kvUrl := some "u", kvToken := some "t" }
      (KVData.array [kvRaw]) FileData.absent 0 (fun _ => "r") = [kvRaw] ∧
    kvRaw.likes = none := by
  exact ⟨rfl, rfl⟩

/-- C8: the listing projection is sorted by strictly descending timestamp
    (pairwise, the later element's timestamp is at most the earlier one's),
    for every state, query and clock; and on entries with timestamps
    [100, 300, 200] the output order is [300, 200, 100]. The projection is
    built from a sorted copy, leaving the stored list untouched. -/
theorem C8_list_sorted_desc :
    (∀ st q now, List.Pairwise (fun a b => tsOf b.1 ≤ tsOf a.1)
      (getFilteredEntries st q now)) ∧
    ((getFilteredEntries [entryTs 100, entryTs 300, entryTs 200] "" 0).map
      (fun d => tsOf d.1) = [300, 200, 100]) := by
  constructor
  · intro st q now
    haveI hTot : IsTotal Entry (fun a b => tsOf b ≤ tsOf a) :=
      ⟨fun a b => (le_total (tsOf b) (tsOf a)).imp id id⟩
    haveI hTrans : IsTrans Entry (fun a b => tsOf b ≤ tsOf a) :=
      ⟨fun _ _ _ hab hbc => le_trans hbc hab⟩
    have hsorted : List.Pairwise (fun a b => tsOf b ≤ tsOf a) (sortEntries st) :=
      List.sorted_insertionSort _ st
    unfold getFilteredEntries
    rw [List.pairwise_map]
    by_cases hq : toLowerStr (jsTrim q) = ""
    · simpa [hq] using hsorted
    · simp only [hq, if_neg, if_false]
      exact List.Pairwise.sublist (List.filter_sublist _) hsorted
  · decide
